import Mathlib

/-!
Verification of the event-stream planner of the Jungbrunnen LED firmware
(`src/stream/mod.rs` and `calculate_next_buffer` in `src/led_orchestrator/mod.rs`).

Modelling conventions:
* `Instant` and `Duration` (embassy_time) are integer microsecond counts,
  modelled as `Nat`; `Instant::MIN` is `instantMin = 0`.
* Rust u8/u32/u64 values are `Nat`; wrapping casts are explicit `% 256`
  and `% 4294967296`, placed exactly where the source casts (`as u8`,
  `as u32`).  `u32::saturating_sub` is `Nat` truncated subtraction.
* A Rust panic (here: the `%`-by-zero that `get_color_at_instant` and
  `get_next_change_after` hit when the stream period is 0 µs, the
  `.unwrap()` of the stream minimum inside `ColorStepIterator::next`, and
  the `assert!` in `StreamConfig::new`) is modelled by `Option`, `none`
  meaning the call panics.
* `micros_per_tick` and `tick_overhead` are `i32` in the source but are
  only ever used with the positive values 64 and 5; they are modelled as
  `Nat` (their `as u64` / `as u32` casts are then the identity).
-/

/-- Smallest representable instant, `Instant::MIN` (0 µs). -/
def instantMin : Nat := 0

/-- Color: triple of 8-bit channel intensities (`Color(pub u8, pub u8, pub u8)`).
The u8 fields are modelled as `Nat`; `Color.isValid` states the u8 range. -/
structure Color where
  r : Nat
  g : Nat
  b : Nat
deriving DecidableEq

/-- Color::black. -/
def Color.black : Color := ⟨0, 0, 0⟩

/-- Each channel of the color fits in a u8. -/
def Color.isValid (c : Color) : Prop := c.r ≤ 255 ∧ c.g ≤ 255 ∧ c.b ≤ 255

instance (c : Color) : Decidable c.isValid :=
  inferInstanceAs (Decidable (_ ≤ _ ∧ _ ≤ _ ∧ _ ≤ _))

/-- StreamConfig.  The source stores `frequency : Hz`; every use of that field
goes through `self.frequency.as_duration()`, so the model stores that duration
directly: `period` is `frequency.as_duration()` in µs. -/
structure StreamConfig where
  color : Color
  period : Nat
  burst_duration : Nat
  offset : Nat
deriving DecidableEq

/-- Models `Hz::as_duration` (`Duration::from_micros((1e6 / self.0) as u64)`)
for a rational frequency `num / den`, valid for the frequencies used in the
claims (100 Hz, 2 MHz), at which the f32 arithmetic is exact and truncation
to u64 agrees with `Nat` floor division. -/
def hzAsDurationMicros (num den : Nat) : Nat := 1000000 * den / num

/-- StreamConfig::get_start: `Instant::MIN + self.offset`. -/
def StreamConfig.getStart (self : StreamConfig) : Nat := instantMin + self.offset

/-- StreamConfig::get_color_at_instant.  The guard `self.period = 0` models the
panic of `% period.as_micros()` when the period is zero microseconds. -/
def StreamConfig.getColorAtInstant (self : StreamConfig) (instant : Nat) : Option Color :=
  if instant < self.getStart then
    some Color.black
  else if self.period = 0 then
    none
  else if (instant - self.offset) % self.period < self.burst_duration then
    some self.color
  else
    some Color.black

/-- StreamConfig::get_next_change_after.  The guard `self.period = 0` models
the panic of `% period.as_micros()` when the period is zero microseconds. -/
def StreamConfig.getNextChangeAfter (self : StreamConfig) (instant : Option Nat) : Option Nat :=
  match instant with
  | none => some self.getStart
  | some instant =>
    if instant < self.getStart then
      some self.getStart
    else if self.period = 0 then
      none
    else
      let phase := (instant - self.offset) % self.period
      if phase < self.burst_duration then
        some (instant + self.burst_duration - phase)
      else
        some (instant + self.period - phase)

/-- StreamConfig::new.  The `assert!(burst_duration <= frequency.as_duration())`
is modelled by returning `none` (panic) when it fails; `period` is
`frequency.as_duration()` in µs; `offset.unwrap_or_default()` is `getD 0`. -/
def StreamConfig.new? (color : Color) (period : Nat) (burst_duration : Nat)
    (offset : Option Nat) : Option StreamConfig :=
  if burst_duration ≤ period then
    some { color := color, period := period, burst_duration := burst_duration,
           offset := offset.getD 0 }
  else
    none

/-- ColorStep: a color to hold and a delay in PIO ticks (u32 in the source). -/
structure ColorStep where
  color : Color
  delay : Nat
deriving DecidableEq

/-- ColorStep::encode: `(component as u32) << 24 | self.delay & 0xFFFFFF`. -/
def ColorStep.encode (self : ColorStep) (getColorComponent : Color → Nat) : Nat :=
  getColorComponent self.color <<< 24 ||| self.delay &&& 0xFFFFFF

/-- ColorStep::encode_red. -/
def ColorStep.encode_red (self : ColorStep) : Nat := self.encode Color.r

/-- ColorStep::encode_green. -/
def ColorStep.encode_green (self : ColorStep) : Nat := self.encode Color.g

/-- ColorStep::encode_blue. -/
def ColorStep.encode_blue (self : ColorStep) : Nat := self.encode Color.b

/-- Runs an option-valued function over a list, collecting the results;
`none` if any call fails.  Models a Rust iterator chain whose body may
panic and which is fully consumed (by `.min()` or by a fold). -/
def collectOpt {α β : Type} (f : α → Option β) : List α → Option (List β)
  | [] => some []
  | a :: rest =>
    match f a, collectOpt f rest with
    | some b, some bs => some (b :: bs)
    | _, _ => none

/-- Minimum of a list of naturals, `none` on the empty list
(Rust `Iterator::min`). -/
def listMinOpt : List Nat → Option Nat
  | [] => none
  | a :: rest => some (rest.foldl Nat.min a)

/-- ColorStepIterator.  The source splits this into `Config` (streams plus
the two timing parameters) and the iterator proper, which adds
`current_time : Option<Instant>`; the model flattens the two records. -/
structure ColorStepIterator where
  streams : List StreamConfig
  micros_per_tick : Nat
  tick_overhead : Nat
  current_time : Option Nat
deriving DecidableEq

/-- ColorStepIterator::get_next_time_after:
`self.config.streams.iter().map(|s| s.get_next_change_after(instant)).min()`.
Here `none` covers both an empty stream list (`min` of nothing) and a
panicking `get_next_change_after`; both make `next` fail. -/
def ColorStepIterator.get_next_time_after (self : ColorStepIterator)
    (instant : Option Nat) : Option Nat :=
  (collectOpt (fun stream => stream.getNextChangeAfter instant) self.streams).bind
    listMinOpt

/-- One step of the summing fold inside `ColorStepIterator::next`
(u32 additions, hence `% 2^32`). -/
def wrapAdd (sum : Nat × Nat × Nat) (color : Color) : Nat × Nat × Nat :=
  ((sum.1 + color.r) % 4294967296,
   (sum.2.1 + color.g) % 4294967296,
   (sum.2.2 + color.b) % 4294967296)

/-- Final color computation of `ColorStepIterator::next`: take the channel
sums, normalize by `max` when it exceeds 255 (`val * 255 / max`, u32
multiplication hence `% 2^32`), and cast each channel `as u8` (`% 256`). -/
def normalizeColor (sums : Nat × Nat × Nat) : Color :=
  let max := (sums.1.max sums.2.1).max sums.2.2
  if max > 255 then
    Color.mk (sums.1 * 255 % 4294967296 / max % 256)
      (sums.2.1 * 255 % 4294967296 / max % 256)
      (sums.2.2 * 255 % 4294967296 / max % 256)
  else
    Color.mk (sums.1 % 256) (sums.2.1 % 256) (sums.2.2 % 256)

/-- ColorStepIterator::next.  `none` models a panic: the `.unwrap()` of
`get_next_time_after` (empty stream list) or a `%`-by-zero inside a stream
computation.  The delay is
`((diff / micros_per_tick as u64) as u32).saturating_sub(tick_overhead)`:
u64 division, truncating cast to u32 (`% 2^32`), saturating subtraction
(`Nat` subtraction). -/
def ColorStepIterator.next (self : ColorStepIterator) :
    Option (ColorStep × ColorStepIterator) :=
  match self.get_next_time_after self.current_time with
  | none => none
  | some next_time =>
    let current_time := self.current_time.getD instantMin
    match collectOpt (fun stream => stream.getColorAtInstant current_time)
        self.streams with
    | none => none
    | some streamColors =>
      let sums := streamColors.foldl wrapAdd (0, 0, 0)
      let diff := next_time - current_time
      let delay := diff / self.micros_per_tick % 4294967296 - self.tick_overhead
      some (⟨normalizeColor sums, delay⟩,
        { self with current_time := some next_time })

/-- Repeated stepping: `iterSteps it n` is the `(n+1)`-th step emitted by the
iterator (with the iterator state after it), or `none` if any call fails. -/
def iterSteps (it : ColorStepIterator) : Nat → Option (ColorStep × ColorStepIterator)
  | 0 => it.next
  | n + 1 => (iterSteps it n).bind fun r => r.2.next

/-- calculate_next_buffer (led_orchestrator): pulls steps from the iterator
until the red buffer is full (`BUFFER_SIZE` words, the fuel argument here)
and pushes the three per-channel encodings in lock-step; the `.unwrap()` on
`config.next()` is modelled by `none` propagation. -/
def calculate_next_buffer (config : ColorStepIterator) :
    Nat → Option (List Nat × List Nat × List Nat × ColorStepIterator)
  | 0 => some ([], [], [], config)
  | n + 1 =>
    match config.next with
    | none => none
    | some (step, config2) =>
      match calculate_next_buffer config2 n with
      | none => none
      | some (red, green, blue, config3) =>
        some (step.encode_red :: red, step.encode_green :: green,
          step.encode_blue :: blue, config3)

/-- Mathematical per-channel sums of `get_color_at_instant` over the streams
at an instant, used to state the claims about `next` (a panicking stream
reads as black here; the claims assume positive periods, under which no
stream panics). -/
def channelSums (streams : List StreamConfig) (t : Nat) : Nat × Nat × Nat :=
  ((streams.map fun s => ((s.getColorAtInstant t).getD Color.black).r).sum,
   (streams.map fun s => ((s.getColorAtInstant t).getD Color.black).g).sum,
   (streams.map fun s => ((s.getColorAtInstant t).getD Color.black).b).sum)

/-- Scenario S1 of the spec: one stream `(color=(255,0,0), f=100 Hz,
burst=1 ms, offset=0)`; 100 Hz gives a 10000 µs period. -/
def S1stream : StreamConfig :=
  { color := ⟨255, 0, 0⟩, period := 10000, burst_duration := 1000, offset := 0 }

/-- Fresh S1 iterator with `micros_per_tick = 64`, `tick_overhead = 5`. -/
def S1iter : ColorStepIterator :=
  { streams := [S1stream], micros_per_tick := 64, tick_overhead := 5,
    current_time := none }

/-- The S1 iterator advanced to a given current time. -/
def S1at (t : Nat) : ColorStepIterator := { S1iter with current_time := some t }

/-! Basic lemmas about the stream phase math. -/

lemma getStart_eq (s : StreamConfig) : s.getStart = s.offset := Nat.zero_add _

lemma getColorAtInstant_of_lt (s : StreamConfig) (t : Nat) (ht : t < s.offset) :
    s.getColorAtInstant t = some Color.black := by
  unfold StreamConfig.getColorAtInstant
  rw [if_pos (by rw [getStart_eq]; exact ht)]

lemma getColorAtInstant_of_ge (s : StreamConfig) (hp : s.period ≠ 0) (t : Nat)
    (ht : s.offset ≤ t) :
    s.getColorAtInstant t =
      if (t - s.offset) % s.period < s.burst_duration then some s.color
      else some Color.black := by
  unfold StreamConfig.getColorAtInstant
  rw [if_neg (by rw [getStart_eq]; omega), if_neg hp]

lemma getNextChangeAfter_of_ge (s : StreamConfig) (hp : s.period ≠ 0) (t : Nat)
    (ht : s.offset ≤ t) :
    s.getNextChangeAfter (some t) =
      if (t - s.offset) % s.period < s.burst_duration then
        some (t + s.burst_duration - (t - s.offset) % s.period)
      else
        some (t + s.period - (t - s.offset) % s.period) := by
  simp only [StreamConfig.getNextChangeAfter]
  rw [if_neg (by rw [getStart_eq]; omega), if_neg hp]

lemma getColorAtInstant_total (s : StreamConfig) (hp : 1 ≤ s.period) (t : Nat) :
    ∃ c, s.getColorAtInstant t = some c := by
  by_cases ht : t < s.offset
  · exact ⟨_, getColorAtInstant_of_lt s t ht⟩
  · rw [getColorAtInstant_of_ge s (by omega) t (by omega)]
    by_cases hb : (t - s.offset) % s.period < s.burst_duration
    · rw [if_pos hb]; exact ⟨_, rfl⟩
    · rw [if_neg hb]; exact ⟨_, rfl⟩

lemma getNextChangeAfter_total (s : StreamConfig) (hp : 1 ≤ s.period)
    (instant : Option Nat) : ∃ v, s.getNextChangeAfter instant = some v := by
  cases instant with
  | none => exact ⟨_, rfl⟩
  | some t =>
    by_cases ht : t < s.offset
    · refine ⟨s.getStart, ?_⟩
      simp only [StreamConfig.getNextChangeAfter]
      rw [if_pos (by rw [getStart_eq]; exact ht)]
    · rw [getNextChangeAfter_of_ge s (by omega) t (by omega)]
      by_cases hb : (t - s.offset) % s.period < s.burst_duration
      · rw [if_pos hb]; exact ⟨_, rfl⟩
      · rw [if_neg hb]; exact ⟨_, rfl⟩

lemma getNextChangeAfter_gt (s : StreamConfig) (hp : 1 ≤ s.period) (t : Nat) :
    ∃ v, s.getNextChangeAfter (some t) = some v ∧ t < v := by
  by_cases ht : t < s.offset
  · refine ⟨s.getStart, ?_, by rw [getStart_eq]; exact ht⟩
    simp only [StreamConfig.getNextChangeAfter]
    rw [if_pos (by rw [getStart_eq]; exact ht)]
  · have hmod : (t - s.offset) % s.period < s.period := Nat.mod_lt _ (by omega)
    rw [getNextChangeAfter_of_ge s (by omega) t (by omega)]
    by_cases hb : (t - s.offset) % s.period < s.burst_duration
    · rw [if_pos hb]; exact ⟨_, rfl, by omega⟩
    · rw [if_neg hb]; exact ⟨_, rfl, by omega⟩

/-! Lemmas about the option-collecting map and the list minimum. -/

lemma collectOpt_mem {α β : Type} (f : α → Option β) (l : List α) (bs : List β)
    (h : collectOpt f l = some bs) : ∀ b ∈ bs, ∃ a ∈ l, f a = some b := by
  induction l generalizing bs with
  | nil =>
    simp only [collectOpt, Option.some.injEq] at h
    subst h; simp
  | cons a rest ih =>
    unfold collectOpt at h
    cases hfa : f a with
    | none => rw [hfa] at h; simp at h
    | some b0 =>
      cases hrest : collectOpt f rest with
      | none => rw [hfa, hrest] at h; simp at h
      | some bs0 =>
        rw [hfa, hrest] at h
        simp only [Option.some.injEq] at h
        subst h
        intro b hb
        rcases List.mem_cons.mp hb with hb | hb
        · exact ⟨a, List.mem_cons_self a rest, by rw [hfa, hb]⟩
        · obtain ⟨a2, ha2, hfa2⟩ := ih bs0 hrest b hb
          exact ⟨a2, List.mem_cons_of_mem a ha2, hfa2⟩

lemma collectOpt_total {α β : Type} (f : α → Option β) (l : List α)
    (h : ∀ a ∈ l, ∃ b, f a = some b) :
    ∃ bs, collectOpt f l = some bs ∧ bs.length = l.length := by
  induction l with
  | nil => exact ⟨[], rfl, rfl⟩
  | cons a rest ih =>
    obtain ⟨b, hb⟩ := h a (List.mem_cons_self a rest)
    obtain ⟨bs, hbs, hlen⟩ := ih (fun x hx => h x (List.mem_cons_of_mem a hx))
    refine ⟨b :: bs, ?_, by simp [hlen]⟩
    unfold collectOpt
    rw [hb, hbs]

lemma collectOpt_map {α β : Type} (f : α → Option β) (g : α → β) (l : List α)
    (h : ∀ a ∈ l, f a = some (g a)) : collectOpt f l = some (l.map g) := by
  induction l with
  | nil => rfl
  | cons a rest ih =>
    unfold collectOpt
    rw [h a (List.mem_cons_self a rest),
      ih (fun x hx => h x (List.mem_cons_of_mem a hx))]
    simp

lemma foldl_min_mem (a : Nat) (l : List Nat) : l.foldl Nat.min a ∈ a :: l := by
  induction l generalizing a with
  | nil => simp
  | cons b rest ih =>
    simp only [List.foldl_cons]
    rcases List.mem_cons.mp (ih (Nat.min a b)) with h | h
    · rw [h]
      rcases Nat.le_total a b with h2 | h2
      · rw [show Nat.min a b = a from min_eq_left h2]
        exact List.mem_cons_self _ _
      · rw [show Nat.min a b = b from min_eq_right h2]
        exact List.mem_cons_of_mem _ (List.mem_cons_self _ _)
    · exact List.mem_cons_of_mem _ (List.mem_cons_of_mem _ h)

lemma listMinOpt_mem (l : List Nat) (m : Nat) (h : listMinOpt l = some m) :
    m ∈ l := by
  cases l with
  | nil => simp [listMinOpt] at h
  | cons a rest =>
    simp only [listMinOpt, Option.some.injEq] at h
    subst h
    exact foldl_min_mem a rest

/-! Encoding: the low 24 bits of an encoded word are the delay field. -/

lemma encode_low_bits (step : ColorStep) (f : Color → Nat) :
    step.encode f % 16777216 = step.delay % 16777216 := by
  have h1 : (16777216 : Nat) = 2 ^ 24 := by norm_num
  have h2 : (0xFFFFFF : Nat) = 2 ^ 24 - 1 := by norm_num
  unfold ColorStep.encode
  rw [h1, h2]
  apply Nat.eq_of_testBit_eq
  intro i
  simp only [Nat.testBit_mod_two_pow, Nat.testBit_or, Nat.testBit_and,
    Nat.testBit_shiftLeft, Nat.testBit_two_pow_sub_one]
  by_cases hi : i < 24
  · have h3 : ¬ (24 ≤ i) := by omega
    simp [hi, h3]
  · simp [hi]

lemma encode_red_low_bits (step : ColorStep) :
    step.encode_red % 16777216 = step.delay % 16777216 :=
  encode_low_bits step Color.r

lemma encode_green_low_bits (step : ColorStep) :
    step.encode_green % 16777216 = step.delay % 16777216 :=
  encode_low_bits step Color.g

lemma encode_blue_low_bits (step : ColorStep) :
    step.encode_blue % 16777216 = step.delay % 16777216 :=
  encode_low_bits step Color.b

/-- Structure of the buffers produced by `calculate_next_buffer`: the three
buffers are the per-channel encodings of one common list of steps. -/
lemma calculate_next_buffer_structure (n : Nat) :
    ∀ (it : ColorStepIterator) (red green blue : List Nat) (it2 : ColorStepIterator),
      calculate_next_buffer it n = some (red, green, blue, it2) →
      ∃ steps : List ColorStep,
        red = steps.map ColorStep.encode_red ∧
        green = steps.map ColorStep.encode_green ∧
        blue = steps.map ColorStep.encode_blue := by
  induction n with
  | zero =>
    intro it red green blue it2 h
    simp only [calculate_next_buffer, Option.some.injEq, Prod.mk.injEq] at h
    obtain ⟨h1, h2, h3, _⟩ := h
    exact ⟨[], h1.symm, h2.symm, h3.symm⟩
  | succ n ih =>
    intro it red green blue it2 h
    unfold calculate_next_buffer at h
    cases hn : it.next with
    | none => rw [hn] at h; simp at h
    | some r =>
      obtain ⟨step, it3⟩ := r
      rw [hn] at h
      dsimp only at h
      cases hb : calculate_next_buffer it3 n with
      | none => rw [hb] at h; simp at h
      | some r2 =>
        obtain ⟨r4, g4, b4, it4⟩ := r2
        rw [hb] at h
        simp only [Option.some.injEq, Prod.mk.injEq] at h
        obtain ⟨h1, h2, h3, _⟩ := h
        obtain ⟨steps, hr, hg, hbl⟩ := ih it3 r4 g4 b4 it4 hb
        exact ⟨step :: steps, by rw [← h1, hr]; rfl, by rw [← h2, hg]; rfl,
          by rw [← h3, hbl]; rfl⟩

/-- C1: every `ColorStep`'s three encodings `encode_red`, `encode_green`,
`encode_blue` carry identical low-24-bit delay fields (all equal to
`delay mod 2^24`), and every buffer triple produced by
`calculate_next_buffer` consists of the per-channel encodings of one common
step list, so the i-th words of the three buffers encode the same step and
carry identical 24-bit delay fields. -/
theorem channel_delay_consistency :
    (∀ step : ColorStep,
      step.encode_red % 16777216 = step.delay % 16777216 ∧
      step.encode_green % 16777216 = step.delay % 16777216 ∧
      step.encode_blue % 16777216 = step.delay % 16777216) ∧
    (∀ (it : ColorStepIterator) (n : Nat) (red green blue : List Nat)
      (it2 : ColorStepIterator),
      calculate_next_buffer it n = some (red, green, blue, it2) →
      ∃ steps : List ColorStep,
        red = steps.map ColorStep.encode_red ∧
        green = steps.map ColorStep.encode_green ∧
        blue = steps.map ColorStep.encode_blue ∧
        ∀ i (h1 : i < red.length) (h2 : i < green.length) (h3 : i < blue.length),
          red[i] % 16777216 = green[i] % 16777216 ∧
          green[i] % 16777216 = blue[i] % 16777216) := by
  constructor
  · intro step
    exact ⟨encode_red_low_bits step, encode_green_low_bits step,
      encode_blue_low_bits step⟩
  · intro it n red green blue it2 h
    obtain ⟨steps, hr, hg, hb⟩ := calculate_next_buffer_structure n it red green blue it2 h
    refine ⟨steps, hr, hg, hb, ?_⟩
    intro i h1 h2 h3
    subst hr; subst hg; subst hb
    simp only [List.getElem_map]
    constructor
    · rw [encode_red_low_bits, encode_green_low_bits]
    · rw [encode_green_low_bits, encode_blue_low_bits]

/-- Witness for C1: the first two S1 buffer words per channel are the
encodings of a common step list. -/
theorem channel_delay_consistency_witness :
    ∃ steps : List ColorStep,
      [4278190080, 4278190090] = steps.map ColorStep.encode_red ∧
      [0, 10] = steps.map ColorStep.encode_green ∧
      [0, 10] = steps.map ColorStep.encode_blue ∧
      ∀ i (h1 : i < [4278190080, 4278190090].length) (h2 : i < [0, 10].length)
        (h3 : i < [0, 10].length),
        [4278190080, 4278190090][i] % 16777216 = [0, 10][i] % 16777216 ∧
        [0, 10][i] % 16777216 = [0, 10][i] % 16777216 :=
  channel_delay_consistency.2 S1iter 2 [4278190080, 4278190090] [0, 10] [0, 10]
    (S1at 1000) (by decide)

/-- C7 counterexample: with `burst_duration = 0` (allowed by
`burst_duration ≤ period`) the color at `offset + 0·period` is black, not the
stream color; and with `burst_duration = period` the color at
`offset + 0·period + burst_duration` is the stream color, not black. -/
theorem alignment_counterexample :
    StreamConfig.getColorAtInstant ⟨⟨1, 2, 3⟩, 5, 0, 0⟩ (0 + 0 * 5) ≠
      some (Color.mk 1 2 3) ∧
    StreamConfig.getColorAtInstant ⟨⟨1, 2, 3⟩, 5, 5, 0⟩ (0 + 0 * 5 + 5) ≠
      some Color.black := by
  decide

/-- C7 amended: for a stream with `1 ≤ burst_duration ≤ period` and every
`k ≥ 0`, the color at `offset + k·period` is the stream color, and — provided
`burst_duration < period` — the color at `offset + k·period + burst_duration`
is black. -/
theorem alignment (s : StreamConfig) (hb : 1 ≤ s.burst_duration)
    (hbp : s.burst_duration ≤ s.period) (k : Nat) :
    s.getColorAtInstant (s.offset + k * s.period) = some s.color ∧
    (s.burst_duration < s.period →
      s.getColorAtInstant (s.offset + k * s.period + s.burst_duration) =
        some Color.black) := by
  have hp : s.period ≠ 0 := by omega
  constructor
  · rw [getColorAtInstant_of_ge s hp _ (by omega)]
    have h1 : s.offset + k * s.period - s.offset = k * s.period := by omega
    rw [h1, Nat.mul_mod_left]
    rw [if_pos (by omega)]
  · intro hlt
    rw [getColorAtInstant_of_ge s hp _ (by omega)]
    have h1 : s.offset + k * s.period + s.burst_duration - s.offset =
        s.burst_duration + s.period * k := by ring_nf; omega
    rw [h1, Nat.add_mul_mod_self_left, Nat.mod_eq_of_lt hlt]
    rw [if_neg (by omega)]

/-- Witness for C7: the amended alignment at the S1 stream and `k = 2`. -/
theorem alignment_witness :
    S1stream.getColorAtInstant (S1stream.offset + 2 * S1stream.period) =
      some S1stream.color ∧
    (S1stream.burst_duration < S1stream.period →
      S1stream.getColorAtInstant
          (S1stream.offset + 2 * S1stream.period + S1stream.burst_duration) =
        some Color.black) :=
  alignment S1stream (by decide) (by decide) 2

/-- C9: the constructor accepts `burst_duration = 0` with a period of 0 µs
(frequency 2 MHz floor-converts to a 0 µs period), and on such a stream both
`get_color_at_instant` and `get_next_change_after` panic with a
modulus-by-zero (modelled as `none`); `StreamConfig::new` does not enforce
the precondition `period ≥ 1 µs` that totality requires. -/
theorem zero_period_panics :
    hzAsDurationMicros 2000000 1 = 0 ∧
    StreamConfig.new? Color.black 0 0 none = some ⟨Color.black, 0, 0, 0⟩ ∧
    StreamConfig.getColorAtInstant ⟨Color.black, 0, 0, 0⟩ 0 = none ∧
    StreamConfig.getNextChangeAfter ⟨Color.black, 0, 0, 0⟩ (some 0) = none := by
  decide

/-- Mod arithmetic helper: shifting the dividend by less than one period
shifts the phase. -/
lemma mod_add_small (x d p : Nat) (hd : d < p)
    (hsum : x % p + d < p) : (x + d) % p = x % p + d := by
  rw [Nat.add_mod, Nat.mod_eq_of_lt hd, Nat.mod_eq_of_lt hsum]

/-- C2 counterexample: with `burst_duration = period` (spec scenario S5, a
solid color) the color at `get_next_change_after(t)` equals the color at
`t`, so the returned time is not a color edge. -/
theorem change_time_counterexample :
    StreamConfig.getNextChangeAfter ⟨⟨10, 10, 10⟩, 1000, 1000, 0⟩ (some 0) =
      some 1000 ∧
    StreamConfig.getColorAtInstant ⟨⟨10, 10, 10⟩, 1000, 1000, 0⟩ 1000 =
      some (Color.mk 10 10 10) ∧
    StreamConfig.getColorAtInstant ⟨⟨10, 10, 10⟩, 1000, 1000, 0⟩ 0 =
      some (Color.mk 10 10 10) := by
  decide

/-- C2 amended: for a single stream with `1 ≤ burst_duration < period` and a
non-black color, `get_next_change_after (some t)` returns a time `T` at which
the color differs from the color at `t`, and the color is constant on the
half-open interval `[t, T)`. -/
theorem change_time_fixpoint (s : StreamConfig) (hb : 1 ≤ s.burst_duration)
    (hbp : s.burst_duration < s.period) (hc : s.color ≠ Color.black) (t : Nat) :
    ∃ T, s.getNextChangeAfter (some t) = some T ∧
      s.getColorAtInstant T ≠ s.getColorAtInstant t ∧
      ∀ u, t ≤ u → u < T → s.getColorAtInstant u = s.getColorAtInstant t := by
  have hp : s.period ≠ 0 := by omega
  by_cases ht : t < s.offset
  · refine ⟨s.offset, ?_, ?_, ?_⟩
    · simp only [StreamConfig.getNextChangeAfter]
      rw [if_pos (by rw [getStart_eq]; exact ht), getStart_eq]
    · rw [getColorAtInstant_of_lt s t ht, getColorAtInstant_of_ge s hp _ (by omega)]
      rw [Nat.sub_self, Nat.zero_mod, if_pos (by omega)]
      simp only [ne_eq, Option.some.injEq]
      exact hc
    · intro u hu1 hu2
      rw [getColorAtInstant_of_lt s t ht, getColorAtInstant_of_lt s u hu2]
  · have hto : s.offset ≤ t := by omega
    have hφlt : (t - s.offset) % s.period < s.period := Nat.mod_lt _ (by omega)
    rw [getNextChangeAfter_of_ge s hp t hto]
    by_cases hφ : (t - s.offset) % s.period < s.burst_duration
    · rw [if_pos hφ]
      refine ⟨t + s.burst_duration - (t - s.offset) % s.period, rfl, ?_, ?_⟩
      · rw [getColorAtInstant_of_ge s hp t hto,
          getColorAtInstant_of_ge s hp _ (by omega), if_pos hφ]
        have harg : t + s.burst_duration - (t - s.offset) % s.period - s.offset =
            (t - s.offset) + (s.burst_duration - (t - s.offset) % s.period) := by
          omega
        rw [harg, mod_add_small _ _ _ (by omega) (by omega)]
        rw [if_neg (by omega)]
        simp only [ne_eq, Option.some.injEq]
        exact fun h => hc h.symm
      · intro u hu1 hu2
        rw [getColorAtInstant_of_ge s hp t hto,
          getColorAtInstant_of_ge s hp u (by omega), if_pos hφ]
        have harg : u - s.offset = (t - s.offset) + (u - t) := by omega
        rw [harg, mod_add_small _ _ _ (by omega) (by omega)]
        rw [if_pos (by omega)]
    · rw [if_neg hφ]
      refine ⟨t + s.period - (t - s.offset) % s.period, rfl, ?_, ?_⟩
      · rw [getColorAtInstant_of_ge s hp t hto,
          getColorAtInstant_of_ge s hp _ (by omega), if_neg hφ]
        have harg : t + s.period - (t - s.offset) % s.period - s.offset =
            (t - s.offset) + (s.period - (t - s.offset) % s.period) := by
          omega
        rw [harg]
        have h3 := Nat.div_add_mod (t - s.offset) s.period
        have h0 : ((t - s.offset) + (s.period - (t - s.offset) % s.period)) %
            s.period = 0 := by
          have h1 : (t - s.offset) + (s.period - (t - s.offset) % s.period) =
              s.period * ((t - s.offset) / s.period + 1) := by
            rw [Nat.mul_add, Nat.mul_one]
            omega
          rw [h1, Nat.mul_mod_right]
        rw [h0, if_pos (by omega)]
        simp only [ne_eq, Option.some.injEq]
        exact hc
      · intro u hu1 hu2
        rw [getColorAtInstant_of_ge s hp t hto,
          getColorAtInstant_of_ge s hp u (by omega), if_neg hφ]
        have harg : u - s.offset = (t - s.offset) + (u - t) := by omega
        rw [harg, mod_add_small _ _ _ (by omega) (by omega)]
        rw [if_neg (by omega)]

/-- Witness for C2: the amended fixpoint property at the S1 stream, t = 500. -/
theorem change_time_fixpoint_witness :
    ∃ T, S1stream.getNextChangeAfter (some 500) = some T ∧
      S1stream.getColorAtInstant T ≠ S1stream.getColorAtInstant 500 ∧
      ∀ u, 500 ≤ u → u < T →
        S1stream.getColorAtInstant u = S1stream.getColorAtInstant 500 :=
  change_time_fixpoint S1stream (by decide) (by decide) (by decide) 500

/-! Characterization of a successful `next` call. -/

lemma next_some_parts (st : ColorStepIterator) (step : ColorStep)
    (st2 : ColorStepIterator) (hn : st.next = some (step, st2)) :
    ∃ T colors,
      st.get_next_time_after st.current_time = some T ∧
      collectOpt (fun stream =>
        stream.getColorAtInstant (st.current_time.getD instantMin))
        st.streams = some colors ∧
      st2 = { st with current_time := some T } ∧
      step.delay = (T - st.current_time.getD instantMin) / st.micros_per_tick %
        4294967296 - st.tick_overhead ∧
      step.color = normalizeColor (colors.foldl wrapAdd (0, 0, 0)) := by
  unfold ColorStepIterator.next at hn
  cases h1 : st.get_next_time_after st.current_time with
  | none => rw [h1] at hn; simp at hn
  | some T =>
    rw [h1] at hn
    dsimp only at hn
    cases h2 : collectOpt (fun stream =>
        stream.getColorAtInstant (st.current_time.getD instantMin))
        st.streams with
    | none => rw [h2] at hn; simp at hn
    | some colors =>
      rw [h2] at hn
      simp only [Option.some.injEq, Prod.mk.injEq] at hn
      obtain ⟨hstep, hst2⟩ := hn
      exact ⟨T, colors, rfl, rfl, hst2.symm, by rw [← hstep],
        by rw [← hstep]⟩

/-- C3: once `current_time` is set, every successful `next` call strictly
advances it (here under the §3 invariants plus `period ≥ 1 µs` for every
stream), so the sequence of `current_time` values is strictly increasing
from the second call on, and in particular monotonically non-decreasing. -/
theorem current_time_strictly_increases (st : ColorStepIterator)
    (hper : ∀ s ∈ st.streams, 1 ≤ s.period) (t : Nat)
    (hct : st.current_time = some t) (step : ColorStep)
    (st2 : ColorStepIterator) (hn : st.next = some (step, st2)) :
    ∃ T, st2.current_time = some T ∧ t < T := by
  obtain ⟨T, colors, h1, h2, h3, h4, h5⟩ := next_some_parts st step st2 hn
  refine ⟨T, by rw [h3], ?_⟩
  unfold ColorStepIterator.get_next_time_after at h1
  cases hcr : collectOpt (fun stream => stream.getNextChangeAfter st.current_time)
      st.streams with
  | none => rw [hcr] at h1; simp at h1
  | some vs =>
    rw [hcr] at h1
    simp only [Option.some_bind] at h1
    have hTmem := listMinOpt_mem vs T h1
    obtain ⟨s, hs, hfs⟩ := collectOpt_mem _ _ _ hcr T hTmem
    rw [hct] at hfs
    obtain ⟨v, hv, hlt⟩ := getNextChangeAfter_gt s (hper s hs) t
    rw [hv] at hfs
    simp only [Option.some.injEq] at hfs
    omega

/-- Witness for C3: the S1 iterator at current time 0 advances to 1000. -/
theorem current_time_strictly_increases_witness :
    ∃ T, (S1at 1000).current_time = some T ∧ 0 < T :=
  current_time_strictly_increases (S1at 0) (by decide) 0 (by decide)
    ⟨⟨255, 0, 0⟩, 10⟩ (S1at 1000) (by decide)

/-- C4 counterexample: a stream accepted by the constructor (burst 0 ≤
period 0, satisfying the §3 invariant `burst_duration ≤ period`) makes
`next` panic (return `none`) on its very first call even though the stream
list is non-empty: the color summation hits a modulus-by-zero. -/
theorem next_totality_counterexample :
    StreamConfig.new? Color.black 0 0 none = some ⟨Color.black, 0, 0, 0⟩ ∧
    ([⟨Color.black, 0, 0, 0⟩] : List StreamConfig) ≠ [] ∧
    (⟨[⟨Color.black, 0, 0, 0⟩], 64, 5, none⟩ : ColorStepIterator).next = none := by
  decide

/-- C4 amended: under the §3 invariants strengthened with `period ≥ 1 µs`
for every stream, `next` always succeeds when the stream list is non-empty;
with an empty stream list the stream minimum is undefined and `next` fails. -/
theorem next_totality (st : ColorStepIterator)
    (hper : ∀ s ∈ st.streams, 1 ≤ s.period) :
    (st.streams = [] → st.next = none) ∧
    (st.streams ≠ [] → ∃ r, st.next = some r) := by
  constructor
  · intro he
    unfold ColorStepIterator.next ColorStepIterator.get_next_time_after
    rw [he]
    simp [collectOpt, listMinOpt]
  · intro hne
    have h1 : ∀ s ∈ st.streams, ∃ v, s.getNextChangeAfter st.current_time = some v :=
      fun s hs => getNextChangeAfter_total s (hper s hs) st.current_time
    obtain ⟨vs, hvs, hlen⟩ := collectOpt_total _ _ h1
    obtain ⟨m, hm⟩ : ∃ m, listMinOpt vs = some m := by
      cases hv2 : vs with
      | nil =>
        rw [hv2] at hlen
        cases hst : st.streams with
        | nil => exact absurd hst hne
        | cons a rest => rw [hst] at hlen; simp at hlen
      | cons a rest => exact ⟨_, rfl⟩
    have h2 : ∀ s ∈ st.streams, ∃ c,
        s.getColorAtInstant (st.current_time.getD instantMin) = some c :=
      fun s hs => getColorAtInstant_total s (hper s hs) _
    obtain ⟨cs, hcs, _⟩ := collectOpt_total _ _ h2
    refine ⟨(⟨normalizeColor (cs.foldl wrapAdd (0, 0, 0)),
      (m - st.current_time.getD instantMin) / st.micros_per_tick % 4294967296 -
        st.tick_overhead⟩, { st with current_time := some m }), ?_⟩
    unfold ColorStepIterator.next ColorStepIterator.get_next_time_after
    rw [hvs]
    simp only [Option.some_bind]
    rw [hm]
    dsimp only
    rw [hcs]

/-- Witness for C4: the amended totality at the concrete S1 iterator. -/
theorem next_totality_witness :
    (∀ s ∈ S1iter.streams, 1 ≤ s.period) ∧
    ((S1iter.streams = [] → S1iter.next = none) ∧
     (S1iter.streams ≠ [] → ∃ r, S1iter.next = some r)) :=
  ⟨by decide, next_totality S1iter (by decide)⟩

/-! Summation machinery for C5 and C10. -/

lemma foldl_wrapAdd_eq (colors : List Color) :
    ∀ a b c : Nat,
    a + (colors.map Color.r).sum < 4294967296 →
    b + (colors.map Color.g).sum < 4294967296 →
    c + (colors.map Color.b).sum < 4294967296 →
    colors.foldl wrapAdd (a, b, c) =
      (a + (colors.map Color.r).sum, b + (colors.map Color.g).sum,
       c + (colors.map Color.b).sum) := by
  induction colors with
  | nil =>
    intro a b c _ _ _
    simp
  | cons d rest ih =>
    intro a b c ha hb hc
    simp only [List.map_cons, List.sum_cons] at ha hb hc ⊢
    simp only [List.foldl_cons, wrapAdd]
    rw [Nat.mod_eq_of_lt (by omega), Nat.mod_eq_of_lt (by omega),
      Nat.mod_eq_of_lt (by omega)]
    rw [ih (a + d.r) (b + d.g) (c + d.b) (by omega) (by omega) (by omega)]
    simp [Nat.add_assoc]

lemma sum_channels_le (colors : List Color) (h : ∀ c ∈ colors, c.isValid) :
    (colors.map Color.r).sum ≤ 255 * colors.length ∧
    (colors.map Color.g).sum ≤ 255 * colors.length ∧
    (colors.map Color.b).sum ≤ 255 * colors.length := by
  induction colors with
  | nil => simp
  | cons d rest ih =>
    have hd := h d (List.mem_cons_self d rest)
    simp only [Color.isValid] at hd
    obtain ⟨h1, h2, h3⟩ := ih (fun x hx => h x (List.mem_cons_of_mem d hx))
    simp only [List.map_cons, List.sum_cons, List.length_cons]
    refine ⟨by omega, by omega, by omega⟩

lemma getColorAtInstant_valid (s : StreamConfig) (hv : s.color.isValid)
    (t : Nat) (c : Color) (h : s.getColorAtInstant t = some c) : c.isValid := by
  unfold StreamConfig.getColorAtInstant at h
  split at h
  · simp only [Option.some.injEq] at h
    subst h; decide
  · split at h
    · simp at h
    · split at h
      · simp only [Option.some.injEq] at h
        subst h; exact hv
      · simp only [Option.some.injEq] at h
        subst h; decide

lemma collectOpt_colors (streams : List StreamConfig) (t : Nat)
    (hper : ∀ s ∈ streams, 1 ≤ s.period) :
    collectOpt (fun s => s.getColorAtInstant t) streams =
      some (streams.map fun s => (s.getColorAtInstant t).getD Color.black) := by
  apply collectOpt_map
  intro s hs
  obtain ⟨c, hc⟩ := getColorAtInstant_total s (hper s hs) t
  rw [hc]
  rfl

lemma channelSums_components (streams : List StreamConfig) (t : Nat) :
    ((streams.map fun s => (s.getColorAtInstant t).getD Color.black).map
        Color.r).sum = (channelSums streams t).1 ∧
    ((streams.map fun s => (s.getColorAtInstant t).getD Color.black).map
        Color.g).sum = (channelSums streams t).2.1 ∧
    ((streams.map fun s => (s.getColorAtInstant t).getD Color.black).map
        Color.b).sum = (channelSums streams t).2.2 := by
  simp only [channelSums, List.map_map]
  exact ⟨rfl, rfl, rfl⟩

/-- Central characterization: under positive periods, valid colors and the
no-overflow bound, the color of a produced step is `normalizeColor` of the
mathematical channel sums, which are bounded by `255 * N`. -/
lemma next_sums (st : ColorStepIterator)
    (hper : ∀ s ∈ st.streams, 1 ≤ s.period)
    (hval : ∀ s ∈ st.streams, s.color.isValid)
    (hN : st.streams.length * 255 * 255 < 4294967296)
    (step : ColorStep) (st2 : ColorStepIterator)
    (hn : st.next = some (step, st2)) :
    step.color = normalizeColor
      (channelSums st.streams (st.current_time.getD instantMin)) ∧
    (channelSums st.streams (st.current_time.getD instantMin)).1 ≤
      255 * st.streams.length ∧
    (channelSums st.streams (st.current_time.getD instantMin)).2.1 ≤
      255 * st.streams.length ∧
    (channelSums st.streams (st.current_time.getD instantMin)).2.2 ≤
      255 * st.streams.length := by
  obtain ⟨T, colors, h1, h2, h3, h4, h5⟩ := next_some_parts st step st2 hn
  rw [collectOpt_colors st.streams (st.current_time.getD instantMin) hper] at h2
  simp only [Option.some.injEq] at h2
  subst h2
  have hcv : ∀ c ∈ (st.streams.map fun s =>
      (s.getColorAtInstant (st.current_time.getD instantMin)).getD Color.black),
      c.isValid := by
    intro c hc
    obtain ⟨s, hs, hsc⟩ := List.mem_map.mp hc
    obtain ⟨c2, hc2⟩ := getColorAtInstant_total s (hper s hs) _
    have hceq : c = c2 := by rw [← hsc, hc2]; rfl
    subst hceq
    exact getColorAtInstant_valid s (hval s hs) _ _ hc2
  obtain ⟨hr, hg, hb⟩ := sum_channels_le _ hcv
  simp only [List.length_map] at hr hg hb
  obtain ⟨hcr, hcg, hcb⟩ :=
    channelSums_components st.streams (st.current_time.getD instantMin)
  rw [hcr] at hr
  rw [hcg] at hg
  rw [hcb] at hb
  have hbound : 255 * st.streams.length ≤ st.streams.length * 255 * 255 := by
    calc 255 * st.streams.length = st.streams.length * 255 * 1 := by ring
    _ ≤ st.streams.length * 255 * 255 := Nat.mul_le_mul_left _ (by norm_num)
  refine ⟨?_, hr, hg, hb⟩
  rw [h5]
  congr 1
  rw [foldl_wrapAdd_eq _ 0 0 0 (by omega) (by omega) (by omega)]
  simp only [Nat.zero_add]
  rw [hcr, hcg, hcb]

/-- Evaluation of `normalizeColor` when the u32 products cannot wrap: the
casts are all identities and both branches take the claimed form. -/
lemma normalizeColor_eq (s1 s21 s22 : Nat)
    (h1 : s1 * 255 < 4294967296) (h2 : s21 * 255 < 4294967296)
    (h3 : s22 * 255 < 4294967296) :
    normalizeColor (s1, s21, s22) =
      (if 255 < (s1.max s21).max s22 then
        Color.mk (s1 * 255 / (s1.max s21).max s22)
          (s21 * 255 / (s1.max s21).max s22)
          (s22 * 255 / (s1.max s21).max s22)
      else Color.mk s1 s21 s22) ∧
    (255 < (s1.max s21).max s22 →
      s1 * 255 / (s1.max s21).max s22 ≤ 255 ∧
      s21 * 255 / (s1.max s21).max s22 ≤ 255 ∧
      s22 * 255 / (s1.max s21).max s22 ≤ 255) ∧
    (¬ 255 < (s1.max s21).max s22 → s1 ≤ 255 ∧ s21 ≤ 255 ∧ s22 ≤ 255) := by
  have hM1 : s1 ≤ (s1.max s21).max s22 :=
    le_trans (Nat.le_max_left _ _) (Nat.le_max_left _ _)
  have hM2 : s21 ≤ (s1.max s21).max s22 :=
    le_trans (Nat.le_max_right _ _) (Nat.le_max_left _ _)
  have hM3 : s22 ≤ (s1.max s21).max s22 := Nat.le_max_right _ _
  by_cases h255 : 255 < (s1.max s21).max s22
  · have hMpos : 0 < (s1.max s21).max s22 := by omega
    have hd1 : s1 * 255 / (s1.max s21).max s22 ≤ 255 := by
      have ha : s1 * 255 ≤ (s1.max s21).max s22 * 255 := Nat.mul_le_mul_right _ hM1
      have hb2 : s1 * 255 / (s1.max s21).max s22 ≤
          (s1.max s21).max s22 * 255 / (s1.max s21).max s22 :=
        Nat.div_le_div_right ha
      rw [Nat.mul_div_cancel_left _ hMpos] at hb2
      exact hb2
    have hd2 : s21 * 255 / (s1.max s21).max s22 ≤ 255 := by
      have ha : s21 * 255 ≤ (s1.max s21).max s22 * 255 := Nat.mul_le_mul_right _ hM2
      have hb2 : s21 * 255 / (s1.max s21).max s22 ≤
          (s1.max s21).max s22 * 255 / (s1.max s21).max s22 :=
        Nat.div_le_div_right ha
      rw [Nat.mul_div_cancel_left _ hMpos] at hb2
      exact hb2
    have hd3 : s22 * 255 / (s1.max s21).max s22 ≤ 255 := by
      have ha : s22 * 255 ≤ (s1.max s21).max s22 * 255 := Nat.mul_le_mul_right _ hM3
      have hb2 : s22 * 255 / (s1.max s21).max s22 ≤
          (s1.max s21).max s22 * 255 / (s1.max s21).max s22 :=
        Nat.div_le_div_right ha
      rw [Nat.mul_div_cancel_left _ hMpos] at hb2
      exact hb2
    refine ⟨?_, fun _ => ⟨hd1, hd2, hd3⟩, fun hcon => absurd h255 hcon⟩
    unfold normalizeColor
    dsimp only
    rw [if_pos h255, if_pos h255]
    rw [Nat.mod_eq_of_lt h1, Nat.mod_eq_of_lt h2, Nat.mod_eq_of_lt h3]
    rw [Nat.mod_eq_of_lt (by omega), Nat.mod_eq_of_lt (by omega),
      Nat.mod_eq_of_lt (by omega)]
  · refine ⟨?_, fun hcon => absurd hcon h255, fun _ => ⟨by omega, by omega, by omega⟩⟩
    unfold normalizeColor
    dsimp only
    rw [if_neg h255, if_neg h255]
    rw [Nat.mod_eq_of_lt (by omega), Nat.mod_eq_of_lt (by omega),
      Nat.mod_eq_of_lt (by omega)]

/-- Spec-side description of step 4 of §4.B (claims C5/C10): exact
arithmetic normalization of the channel sums — `channel * 255 / max` with
truncated division when `max > 255`, the sums unchanged otherwise, with no
u32 wrap and no u8 cast.  Compared against `normalizeColor`, which is the
code's computation. -/
def claimNormalize (sums : Nat × Nat × Nat) : Color :=
  if 255 < (sums.1.max sums.2.1).max sums.2.2 then
    Color.mk (sums.1 * 255 / ((sums.1.max sums.2.1).max sums.2.2))
      (sums.2.1 * 255 / ((sums.1.max sums.2.1).max sums.2.2))
      (sums.2.2 * 255 / ((sums.1.max sums.2.1).max sums.2.2))
  else
    Color.mk sums.1 sums.2.1 sums.2.2

/-- C5: the color of every step produced by `next` is exactly the claimed
function of the per-channel sums of `get_color_at_instant` over the streams
at the evaluation instant: rescaled by `channel * 255 / max` when
`max > 255`, the sums themselves otherwise (stated under positive periods,
u8-valid stream colors, and the `N·255·255 < 2^32` no-overflow bound of
C10). -/
theorem summed_color_normalization (st : ColorStepIterator)
    (hper : ∀ s ∈ st.streams, 1 ≤ s.period)
    (hval : ∀ s ∈ st.streams, s.color.isValid)
    (hN : st.streams.length * 255 * 255 < 4294967296)
    (step : ColorStep) (st2 : ColorStepIterator)
    (hn : st.next = some (step, st2)) :
    step.color = claimNormalize
      (channelSums st.streams (st.current_time.getD instantMin)) := by
  obtain ⟨hcol, hr, hg, hb⟩ := next_sums st hper hval hN step st2 hn
  have hbound : 255 * st.streams.length ≤ st.streams.length * 255 * 255 := by
    calc 255 * st.streams.length = st.streams.length * 255 * 1 := by ring
    _ ≤ st.streams.length * 255 * 255 := Nat.mul_le_mul_left _ (by norm_num)
  have hmul : ∀ x : Nat, x ≤ 255 * st.streams.length → x * 255 < 4294967296 := by
    intro x hx
    have h1 : x * 255 ≤ 255 * st.streams.length * 255 := Nat.mul_le_mul_right _ hx
    have h2 : 255 * st.streams.length * 255 = st.streams.length * 255 * 255 := by
      ring
    omega
  have h1 := hmul _ hr
  have h2 := hmul _ hg
  have h3 := hmul _ hb
  have heta : channelSums st.streams (st.current_time.getD instantMin) =
      ((channelSums st.streams (st.current_time.getD instantMin)).1,
       (channelSums st.streams (st.current_time.getD instantMin)).2.1,
       (channelSums st.streams (st.current_time.getD instantMin)).2.2) := rfl
  rw [hcol, heta, (normalizeColor_eq _ _ _ h1 h2 h3).1]
  rfl

/-- Witness for C5 at the concrete S1 iterator (second step). -/
theorem summed_color_normalization_witness :
    (⟨⟨255, 0, 0⟩, 10⟩ : ColorStep).color =
      claimNormalize (channelSums (S1at 0).streams
        ((S1at 0).current_time.getD instantMin)) :=
  summed_color_normalization (S1at 0) (by decide) (by decide) (by decide)
    ⟨⟨255, 0, 0⟩, 10⟩ (S1at 1000) (by decide)

/-- C10: provided `N·255·255 < 2^32`, the u32 products `channel * 255`
cannot wrap, and in both branches every channel value computed before the
`as u8` cast is at most 255, so the casts never truncate: the step color is
exactly the uncast value (sums bounded by `max ≤ 255` in the plain branch,
`channel * 255 / max ≤ 255` in the normalized branch). -/
theorem no_byte_truncation (st : ColorStepIterator)
    (hper : ∀ s ∈ st.streams, 1 ≤ s.period)
    (hval : ∀ s ∈ st.streams, s.color.isValid)
    (hN : st.streams.length * 255 * 255 < 4294967296)
    (step : ColorStep) (st2 : ColorStepIterator)
    (hn : st.next = some (step, st2)) :
    (channelSums st.streams (st.current_time.getD instantMin)).1 * 255 <
      4294967296 ∧
    (channelSums st.streams (st.current_time.getD instantMin)).2.1 * 255 <
      4294967296 ∧
    (channelSums st.streams (st.current_time.getD instantMin)).2.2 * 255 <
      4294967296 ∧
    (255 < ((channelSums st.streams (st.current_time.getD instantMin)).1.max
        (channelSums st.streams (st.current_time.getD instantMin)).2.1).max
        (channelSums st.streams (st.current_time.getD instantMin)).2.2 →
      (channelSums st.streams (st.current_time.getD instantMin)).1 * 255 /
          (((channelSums st.streams (st.current_time.getD instantMin)).1.max
            (channelSums st.streams (st.current_time.getD instantMin)).2.1).max
            (channelSums st.streams (st.current_time.getD instantMin)).2.2) ≤ 255 ∧
      (channelSums st.streams (st.current_time.getD instantMin)).2.1 * 255 /
          (((channelSums st.streams (st.current_time.getD instantMin)).1.max
            (channelSums st.streams (st.current_time.getD instantMin)).2.1).max
            (channelSums st.streams (st.current_time.getD instantMin)).2.2) ≤ 255 ∧
      (channelSums st.streams (st.current_time.getD instantMin)).2.2 * 255 /
          (((channelSums st.streams (st.current_time.getD instantMin)).1.max
            (channelSums st.streams (st.current_time.getD instantMin)).2.1).max
            (channelSums st.streams (st.current_time.getD instantMin)).2.2) ≤ 255) ∧
    (¬ 255 < ((channelSums st.streams (st.current_time.getD instantMin)).1.max
        (channelSums st.streams (st.current_time.getD instantMin)).2.1).max
        (channelSums st.streams (st.current_time.getD instantMin)).2.2 →
      (channelSums st.streams (st.current_time.getD instantMin)).1 ≤ 255 ∧
      (channelSums st.streams (st.current_time.getD instantMin)).2.1 ≤ 255 ∧
      (channelSums st.streams (st.current_time.getD instantMin)).2.2 ≤ 255) := by
  obtain ⟨hcol, hr, hg, hb⟩ := next_sums st hper hval hN step st2 hn
  have hmul : ∀ x : Nat, x ≤ 255 * st.streams.length → x * 255 < 4294967296 := by
    intro x hx
    have h1 : x * 255 ≤ 255 * st.streams.length * 255 := Nat.mul_le_mul_right _ hx
    have h2 : 255 * st.streams.length * 255 = st.streams.length * 255 * 255 := by
      ring
    omega
  have h1 := hmul _ hr
  have h2 := hmul _ hg
  have h3 := hmul _ hb
  obtain ⟨heq, hdiv, hplain⟩ := normalizeColor_eq
    (channelSums st.streams (st.current_time.getD instantMin)).1
    (channelSums st.streams (st.current_time.getD instantMin)).2.1
    (channelSums st.streams (st.current_time.getD instantMin)).2.2 h1 h2 h3
  exact ⟨h1, h2, h3, hdiv, hplain⟩

/-- Witness for C10 at the concrete S1 iterator (second step). -/
theorem no_byte_truncation_witness :
    (channelSums (S1at 0).streams ((S1at 0).current_time.getD instantMin)).1 *
        255 < 4294967296 ∧
    (channelSums (S1at 0).streams ((S1at 0).current_time.getD instantMin)).2.1 *
        255 < 4294967296 ∧
    (channelSums (S1at 0).streams ((S1at 0).current_time.getD instantMin)).2.2 *
        255 < 4294967296 ∧
    (255 < (((channelSums (S1at 0).streams
        ((S1at 0).current_time.getD instantMin)).1.max
        (channelSums (S1at 0).streams
          ((S1at 0).current_time.getD instantMin)).2.1).max
        (channelSums (S1at 0).streams
          ((S1at 0).current_time.getD instantMin)).2.2) →
      (channelSums (S1at 0).streams ((S1at 0).current_time.getD instantMin)).1 *
          255 / ((((channelSums (S1at 0).streams
            ((S1at 0).current_time.getD instantMin)).1.max
            (channelSums (S1at 0).streams
              ((S1at 0).current_time.getD instantMin)).2.1).max
            (channelSums (S1at 0).streams
              ((S1at 0).current_time.getD instantMin)).2.2)) ≤ 255 ∧
      (channelSums (S1at 0).streams ((S1at 0).current_time.getD instantMin)).2.1 *
          255 / ((((channelSums (S1at 0).streams
            ((S1at 0).current_time.getD instantMin)).1.max
            (channelSums (S1at 0).streams
              ((S1at 0).current_time.getD instantMin)).2.1).max
            (channelSums (S1at 0).streams
              ((S1at 0).current_time.getD instantMin)).2.2)) ≤ 255 ∧
      (channelSums (S1at 0).streams ((S1at 0).current_time.getD instantMin)).2.2 *
          255 / ((((channelSums (S1at 0).streams
            ((S1at 0).current_time.getD instantMin)).1.max
            (channelSums (S1at 0).streams
              ((S1at 0).current_time.getD instantMin)).2.1).max
            (channelSums (S1at 0).streams
              ((S1at 0).current_time.getD instantMin)).2.2)) ≤ 255) ∧
    (¬ 255 < (((channelSums (S1at 0).streams
        ((S1at 0).current_time.getD instantMin)).1.max
        (channelSums (S1at 0).streams
          ((S1at 0).current_time.getD instantMin)).2.1).max
        (channelSums (S1at 0).streams
          ((S1at 0).current_time.getD instantMin)).2.2) →
      (channelSums (S1at 0).streams
        ((S1at 0).current_time.getD instantMin)).1 ≤ 255 ∧
      (channelSums (S1at 0).streams
        ((S1at 0).current_time.getD instantMin)).2.1 ≤ 255 ∧
      (channelSums (S1at 0).streams
        ((S1at 0).current_time.getD instantMin)).2.2 ≤ 255) :=
  no_byte_truncation (S1at 0) (by decide) (by decide) (by decide)
    ⟨⟨255, 0, 0⟩, 10⟩ (S1at 1000) (by decide)

/-- C6 counterexample: the very first S1 step (offset 0) covers zero wall
time (`next_time = eval_time = 0`) yet the accounting
`delay·64 + tick_overhead·64 = 0 + 320` µs exceeds the span by five ticks,
not one: the saturating subtraction clamped the delay. -/
theorem delay_accounting_counterexample :
    S1iter.next = some (⟨⟨255, 0, 0⟩, 0⟩, S1at 0) ∧
    (S1at 0).current_time = some 0 ∧
    S1iter.current_time.getD instantMin = 0 ∧
    ¬ (0 * 64 + 5 * 64 ≤ (0 - 0) + 64) := by
  decide

/-- C6 amended: for every produced step whose raw tick count
`(next_time − eval_time) / micros_per_tick` is at least `tick_overhead` (no
clamping) and below 2^32 (no u32 truncation), the delay in µs plus
`tick_overhead · micros_per_tick` equals the wall-time span covered by the
step, up to one tick of quantization. -/
theorem delay_accounting (st : ColorStepIterator) (step : ColorStep)
    (st2 : ColorStepIterator) (hn : st.next = some (step, st2)) (T : Nat)
    (hT : st2.current_time = some T) (hmpt : 1 ≤ st.micros_per_tick)
    (hclamp : st.tick_overhead ≤
      (T - st.current_time.getD instantMin) / st.micros_per_tick)
    (hwrap : (T - st.current_time.getD instantMin) / st.micros_per_tick <
      4294967296) :
    step.delay * st.micros_per_tick + st.tick_overhead * st.micros_per_tick ≤
      T - st.current_time.getD instantMin ∧
    T - st.current_time.getD instantMin <
      step.delay * st.micros_per_tick + st.tick_overhead * st.micros_per_tick +
        st.micros_per_tick := by
  obtain ⟨T2, colors, h1, h2, h3, h4, h5⟩ := next_some_parts st step st2 hn
  have hTT : T2 = T := by
    rw [h3] at hT
    exact Option.some.inj hT
  subst hTT
  rw [Nat.mod_eq_of_lt hwrap] at h4
  have hdm := Nat.div_add_mod (T2 - st.current_time.getD instantMin)
    st.micros_per_tick
  have hmod : (T2 - st.current_time.getD instantMin) % st.micros_per_tick <
      st.micros_per_tick :=
    Nat.mod_lt _ (by omega)
  have hsub : ((T2 - st.current_time.getD instantMin) / st.micros_per_tick -
        st.tick_overhead) * st.micros_per_tick =
      (T2 - st.current_time.getD instantMin) / st.micros_per_tick *
        st.micros_per_tick - st.tick_overhead * st.micros_per_tick :=
    Nat.sub_mul _ _ _
  have hmle : st.tick_overhead * st.micros_per_tick ≤
      (T2 - st.current_time.getD instantMin) / st.micros_per_tick *
        st.micros_per_tick :=
    Nat.mul_le_mul_right _ hclamp
  have hqd : (T2 - st.current_time.getD instantMin) / st.micros_per_tick *
      st.micros_per_tick ≤ T2 - st.current_time.getD instantMin :=
    Nat.div_mul_le_self _ _
  have hcomm : st.micros_per_tick *
      ((T2 - st.current_time.getD instantMin) / st.micros_per_tick) =
      (T2 - st.current_time.getD instantMin) / st.micros_per_tick *
        st.micros_per_tick :=
    Nat.mul_comm _ _
  rw [h4, hsub]
  omega

/-- Witness for C6: the amended delay accounting at the second S1 step
(span 1000 µs, delay 10 ticks: 640 + 320 ≤ 1000 < 640 + 320 + 64). -/
theorem delay_accounting_witness :
    (⟨⟨255, 0, 0⟩, 10⟩ : ColorStep).delay * (S1at 0).micros_per_tick +
        (S1at 0).tick_overhead * (S1at 0).micros_per_tick ≤
      1000 - (S1at 0).current_time.getD instantMin ∧
    1000 - (S1at 0).current_time.getD instantMin <
      (⟨⟨255, 0, 0⟩, 10⟩ : ColorStep).delay * (S1at 0).micros_per_tick +
        (S1at 0).tick_overhead * (S1at 0).micros_per_tick +
        (S1at 0).micros_per_tick :=
  delay_accounting (S1at 0) ⟨⟨255, 0, 0⟩, 10⟩ (S1at 1000) (by decide) 1000
    (by decide) (by decide) (by decide) (by decide)

/-! Concrete behaviour of the S1 scenario. -/

lemma S1_step_on (m : Nat) : (S1at (10000 * m)).next =
    some (⟨⟨255, 0, 0⟩, 10⟩, S1at (10000 * m + 1000)) := by
  have hnc : S1stream.getNextChangeAfter (some (10000 * m)) =
      some (10000 * m + 1000) := by
    rw [getNextChangeAfter_of_ge S1stream (by decide) _ (by simp [S1stream])]
    have h0 : (10000 * m - S1stream.offset) % S1stream.period = 0 := by
      simp [S1stream, Nat.mul_mod_right]
    rw [h0, if_pos (by simp [S1stream])]
    simp [S1stream]
  have hcol : S1stream.getColorAtInstant (10000 * m) = some ⟨255, 0, 0⟩ := by
    rw [getColorAtInstant_of_ge S1stream (by decide) _ (by simp [S1stream])]
    have h0 : (10000 * m - S1stream.offset) % S1stream.period = 0 := by
      simp [S1stream, Nat.mul_mod_right]
    rw [h0, if_pos (by simp [S1stream])]
    simp [S1stream]
  unfold ColorStepIterator.next ColorStepIterator.get_next_time_after
  simp only [S1at, S1iter, collectOpt, hnc, hcol, listMinOpt, Option.some_bind,
    Option.getD_some, List.foldl, Nat.add_sub_cancel_left]
  norm_num [normalizeColor, wrapAdd]

set_option maxRecDepth 4000 in
lemma S1_step_off (m : Nat) : (S1at (10000 * m + 1000)).next =
    some (⟨⟨0, 0, 0⟩, 135⟩, S1at (10000 * (m + 1))) := by
  have hmod : (10000 * m + 1000 - S1stream.offset) % S1stream.period = 1000 := by
    simp only [S1stream, Nat.sub_zero]
    rw [Nat.mul_add_mod]
  have hnc : S1stream.getNextChangeAfter (some (10000 * m + 1000)) =
      some (10000 * (m + 1)) := by
    rw [getNextChangeAfter_of_ge S1stream (by decide) _ (by simp [S1stream])]
    rw [hmod, if_neg (by simp [S1stream])]
    have h1 : 10000 * m + 1000 + S1stream.period - 1000 = 10000 * (m + 1) := by
      simp only [S1stream]
      omega
    rw [h1]
  have hcol : S1stream.getColorAtInstant (10000 * m + 1000) =
      some Color.black := by
    rw [getColorAtInstant_of_ge S1stream (by decide) _ (by simp [S1stream])]
    rw [hmod, if_neg (by simp [S1stream])]
  have hdiff : 10000 * (m + 1) - (10000 * m + 1000) = 9000 := by omega
  unfold ColorStepIterator.next ColorStepIterator.get_next_time_after
  simp only [S1at, S1iter, collectOpt, hnc, hcol, listMinOpt, Option.some_bind,
    Option.getD_some, List.foldl, hdiff]
  norm_num [normalizeColor, wrapAdd, Color.black]

/-- C8 counterexample: the first step of the fresh S1 iterator has delay 0
(spanning zero wall time from the minimum instant to `offset = 0`), not the
claimed delay 10. -/
theorem S1_first_step_counterexample :
    (iterSteps S1iter 0).map (fun r => r.1.delay) = some 0 ∧
    (iterSteps S1iter 0).map (fun r => r.1.delay) ≠ some 10 := by
  decide

lemma iterSteps_succ (it : ColorStepIterator) (n : Nat) :
    iterSteps it (n + 1) = (iterSteps it n).bind fun r => r.2.next := rfl

lemma S1_periodic (k : Nat) :
    iterSteps S1iter (2 * k + 1) =
      some (⟨⟨255, 0, 0⟩, 10⟩, S1at (10000 * k + 1000)) ∧
    iterSteps S1iter (2 * k + 2) =
      some (⟨⟨0, 0, 0⟩, 135⟩, S1at (10000 * (k + 1))) := by
  induction k with
  | zero => exact ⟨by decide, by decide⟩
  | succ k ih =>
    obtain ⟨ih1, ih2⟩ := ih
    have h1 : iterSteps S1iter (2 * (k + 1) + 1) =
        some (⟨⟨255, 0, 0⟩, 10⟩, S1at (10000 * (k + 1) + 1000)) := by
      have hidx : 2 * (k + 1) + 1 = (2 * k + 2) + 1 := by ring
      rw [hidx, iterSteps_succ, ih2, Option.some_bind]
      exact S1_step_on (k + 1)
    have h2 : iterSteps S1iter (2 * (k + 1) + 2) =
        some (⟨⟨0, 0, 0⟩, 135⟩, S1at (10000 * (k + 1 + 1))) := by
      have hidx : 2 * (k + 1) + 2 = (2 * (k + 1) + 1) + 1 := by ring
      rw [hidx, iterSteps_succ, h1, Option.some_bind]
      exact S1_step_off (k + 1)
    exact ⟨h1, h2⟩

/-- C8 amended: with `micros_per_tick = 64` and `tick_overhead = 5`, the
fresh S1 iterator (100 Hz, so a 10000 µs period) first emits a degenerate
step `(color=(255,0,0), delay=0)`, and from then on alternates
`(color=(255,0,0), delay=10)` and `(color=(0,0,0), delay=135)` forever; the
encoded red byte of the alternating steps is 0xFF resp. 0x00. -/
theorem S1_first_steps :
    S1stream.period = hzAsDurationMicros 100 1 ∧
    iterSteps S1iter 0 = some (⟨⟨255, 0, 0⟩, 0⟩, S1at 0) ∧
    (∀ k : Nat,
      iterSteps S1iter (2 * k + 1) =
        some (⟨⟨255, 0, 0⟩, 10⟩, S1at (10000 * k + 1000)) ∧
      iterSteps S1iter (2 * k + 2) =
        some (⟨⟨0, 0, 0⟩, 135⟩, S1at (10000 * (k + 1)))) ∧
    (⟨⟨255, 0, 0⟩, 10⟩ : ColorStep).encode_red >>> 24 = 255 ∧
    (⟨⟨0, 0, 0⟩, 135⟩ : ColorStep).encode_red >>> 24 = 0 :=
  ⟨by decide, by decide, fun k => S1_periodic k, by decide, by decide⟩
